import Mathlib

/-!
Verification of the EPID IPv4 codec (src/src/ipv4.rs).

The Rust source converts between dotted-quad IPv4 strings and three-word
"EPID3" identifiers through a shared `u32` ordinal.  Strings are embedded as
`List Char`; machine integers are embedded as `Nat` (overflow questions are
settled explicitly by bounding every intermediate value by `2 ^ 32`).
The word dictionary (`wordlist.rs`, not present under `src/`) is modelled
from the spec as a parameter: a lexicographically sorted, duplicate-free list
of separator-free words.
-/

set_option maxRecDepth 20000

namespace Epid

/-- `IPV4_COMBS` in ipv4.rs: `const IPV4_COMBS: usize = 4294967296; // 256^4`. -/
def IPV4_COMBS : Nat := 4294967296

/-- Bisection worker for the integer ceiling root.  Maintains
`lo ^ k < n ≤ hi ^ k`; 64 halving steps suffice for every interval contained
in `[0, 2^64)`, far beyond the fixed cardinality `2^32` used by the codec. -/
def ceilRootGo (k n : Nat) : Nat → Nat → Nat → Nat
  | 0, _, hi => hi
  | fuel + 1, lo, hi =>
    if hi ≤ lo + 1 then hi
    else
      let mid := (lo + hi) / 2
      if n ≤ mid ^ k then ceilRootGo k n fuel lo mid else ceilRootGo k n fuel mid hi

/-- Least `b` with `n ≤ b ^ k` (for `k ≥ 1`), i.e. the integer ceiling of the
real `k`-th root of `n`. -/
def natCeilRoot (n k : Nat) : Nat :=
  if k = 0 then 0
  else if n ≤ 1 then n
  else ceilRootGo k n 64 0 n

/-- `components_base` in ipv4.rs:
`(IPV4_COMBS as f32).powf(1f32 / (len as f32)).ceil() as u32`.
The source computes the ceiling of the real `len`-th root of `256^4` in `f32`;
we embed it as the exact integer ceiling root.  `2^32` is exactly representable
in `f32` and for every length a claim mentions (3..12, and 4) the `f32` value
of the root lies strictly between the two integers surrounding the exact real
root, so the `f32` ceiling agrees with the exact integer ceiling computed here. -/
def components_base (len : Nat) : Nat := natCeilRoot IPV4_COMBS len

/-- The digit-extraction loop of `deconstruct` in ipv4.rs, least-significant
digit first.  Each iteration records `rem % base`, divides, and breaks early
once the running remainder reaches zero (`if rem == 0 { break; }`).
`fuel` is the number of loop iterations still allowed (`len` at the top). -/
def deconstructDigits (base : Nat) : Nat → Nat → List Nat
  | 0, _ => []
  | fuel + 1, rem =>
    if rem / base = 0 then [rem % base]
    else rem % base :: deconstructDigits base fuel (rem / base)

/-- `deconstruct` in ipv4.rs: fills a zero-initialised vector of length `len`
from the back (`comp[len - place - 1] = rem % base`), so the little-endian
digit list lands reversed at the tail and untouched leading slots stay `0`. -/
def deconstruct (ordinal len : Nat) : List Nat :=
  let base := components_base len
  let ds := deconstructDigits base len ordinal
  List.replicate (len - ds.length) 0 ++ ds.reverse

/-- The term list of `construct` in ipv4.rs:
`components.iter().rev().enumerate().map(|(i, comp)| comp * base.pow(i as u32))`. -/
def constructTerms (base : Nat) (components : List Nat) : List Nat :=
  (components.reverse.enum).map (fun p => p.2 * base ^ p.1)

/-- `construct` in ipv4.rs: the sum of the reversed-enumerated terms, with
`base = components_base(components.len())`. -/
def construct (components : List Nat) : Nat :=
  (constructTerms (components_base components.length) components).sum

/-- The spec's always-full-length decomposition variant, digits
least-significant first: no early exit, every one of the `len` positions is
produced by divide/modulo ("any correct implementation may instead always
iterate the full length"). -/
def deconstructFullDigits (base : Nat) : Nat → Nat → List Nat
  | 0, _ => []
  | fuel + 1, rem => rem % base :: deconstructFullDigits base fuel (rem / base)

/-- The spec's full-length decomposition, most-significant digit first. -/
def deconstructFull (ordinal len : Nat) : List Nat :=
  (deconstructFullDigits (components_base len) len ordinal).reverse

/-- The value of a little-endian digit list: the reference reading of a
positional representation, used to state what `construct` computes. -/
def sumLE (base : Nat) : List Nat → Nat
  | [] => 0
  | d :: ds => d + base * sumLE base ds

/-- Decimal rendering of a `u32` component (`comp.to_string()` in Rust):
little-endian digits (via the same divide/modulo loop shape, base 10, no
leading zeros, `0` rendered as `"0"`), reversed and mapped to digit
characters.  `n + 1` iterations always cover every decimal digit of `n`. -/
def natToChars (n : Nat) : List Char :=
  ((deconstructDigits 10 (n + 1) n).reverse).map Nat.digitChar

/-- `str.join(".")` over the rendered components (`DIVIDER` is `"."`). -/
def joinDots : List (List Char) → List Char
  | [] => []
  | [t] => t
  | t :: ts => t ++ '.' :: joinDots ts

/-- `format_ipv4` in ipv4.rs: each component rendered in decimal, joined by
`"."`. -/
def format_ipv4 (components : List Nat) : List Char :=
  joinDots (components.map natToChars)

/-- `format_epid3` in ipv4.rs: each component used as a dictionary index
(`WORDS[*i as usize]`), joined by `"."`.  The Rust indexing panics out of
bounds; it is embedded totally via `getD`, and every verified use keeps the
index below the dictionary length. -/
def format_epid3 (WORDS : List (List Char)) (components : List Nat) : List Char :=
  joinDots (components.map (fun i => WORDS.getD i []))

/-- `s.split(".")` for the single-character separator: splitting the empty
string yields one empty token, matching Rust. -/
def splitDot : List Char → List (List Char)
  | [] => [[]]
  | c :: rest =>
    if c = '.' then [] :: splitDot rest
    else
      match splitDot rest with
      | [] => [[c]]
      | t :: ts => (c :: t) :: ts

/-- Decimal value of a digit-character token, most significant first. -/
def natValue (cs : List Char) : Nat :=
  cs.foldl (fun a c => a * 10 + (c.toNat - 48)) 0

/-- The digit-run part of `comp.parse::<u8>()`: at least one character, all
ASCII digits, checked accumulation in `u8`.  Because every prefix value of a
digit run is at most the full value, the step-by-step checked `*10`/`+digit`
accumulation of `u8::from_str` fails exactly when the full decimal value
exceeds 255, which is how the bound is stated here. -/
def parseU8Digits (cs : List Char) : Option Nat :=
  if cs = [] then none
  else if cs.all (fun c => c.isDigit) then
    if natValue cs ≤ 255 then some (natValue cs) else none
  else none

/-- `comp.parse::<u8>()` in ipv4.rs: Rust's unsigned `FromStr` additionally
accepts one optional leading `'+'` before the digit run (and nothing else —
no `'-'`, no whitespace). -/
def parseU8 (cs : List Char) : Option Nat :=
  match cs with
  | [] => none
  | c :: rest => if c = '+' then parseU8Digits rest else parseU8Digits (c :: rest)

/-- The per-token loop shared by both parsers: tokens are converted in order
and the first failure aborts the whole parse (`Err(_) => return None`). -/
def parseAll (f : List Char → Option Nat) : List (List Char) → Option (List Nat)
  | [] => some []
  | t :: ts =>
    match f t with
    | none => none
    | some v => (parseAll f ts).map (fun vs => v :: vs)

/-- `parse_ipv4` in ipv4.rs: split on `"."`, demand exactly 4 tokens, parse
each token as `u8` (components listed in order, as the Rust output array). -/
def parse_ipv4 (ipv4 : List Char) : Option (List Nat) :=
  let comps := splitDot ipv4
  if comps.length = 4 then parseAll parseU8 comps else none

/-- The search loop behind `WORDS.binary_search(&comp)`: on the sorted,
duplicate-free dictionary the binary search returns `Ok(i)` exactly when the
token sits at index `i`, which this first-match scan reproduces. -/
def lookupIdxGo (w : List Char) : List (List Char) → Nat → Option Nat
  | [], _ => none
  | x :: xs, i => if x = w then some i else lookupIdxGo w xs (i + 1)

/-- Dictionary lookup of `parse_epid3`: the matching entry's position, or
`none` when the word is absent (`Err(_) => return None`). -/
def lookupIdx (WORDS : List (List Char)) (w : List Char) : Option Nat :=
  lookupIdxGo w WORDS 0

/-- `parse_epid3` in ipv4.rs: split on `"."`, demand exactly 3 tokens, look
each token up in the dictionary. -/
def parse_epid3 (WORDS : List (List Char)) (epid : List Char) : Option (List Nat) :=
  let comps := splitDot epid
  if comps.length = 3 then parseAll (lookupIdx WORDS) comps else none

/-- `ipv4_to_epid3` in ipv4.rs: parse the dotted quad, compose the ordinal
(the `u8 → u32` casts are the identity on `Nat`), decompose to 3 components,
format as words. -/
def ipv4_to_epid3 (WORDS : List (List Char)) (ipv4 : List Char) : Option (List Char) :=
  (((parse_ipv4 ipv4).map (fun comps => construct comps)).map
      (fun ordinal => deconstruct ordinal 3)).map
    (fun comps => format_epid3 WORDS comps)

/-- `epid3_to_ipv4` in ipv4.rs: parse the three words, compose the ordinal,
decompose to 4 components, format as a dotted quad. -/
def epid3_to_ipv4 (WORDS : List (List Char)) (epid : List Char) : Option (List Char) :=
  (((parse_epid3 WORDS epid).map (fun comps => construct comps)).map
      (fun ordinal => deconstruct ordinal 4)).map
    (fun comps => format_ipv4 comps)

/-- Lexicographic strict order on words (character order, shorter prefix
first) — the sort order of the Rust `&str` dictionary restricted to the
ASCII words the spec describes. -/
def lexLt : List Char → List Char → Bool
  | [], [] => false
  | [], _ :: _ => true
  | _ :: _, [] => false
  | a :: as_, b :: bs =>
    if a < b then true else if b < a then false else lexLt as_ bs

/-- Computable check that a word list is strictly sorted in `lexLt` order
(hence also duplicate-free): the dictionary invariant of the spec. -/
def sortedWords : List (List Char) → Bool
  | [] => true
  | [_] => true
  | a :: b :: rest => lexLt a b && sortedWords (b :: rest)

/-- Computable check that no word contains the separator `'.'` — the spec's
word-form format joins dictionary words with `'.'`, so words are dot-free
tokens. -/
def dotFreeWords (WORDS : List (List Char)) : Bool :=
  WORDS.all (fun w => !w.contains '.')

/-- The amended well-formed-token shape for the address form: one optional
leading `'+'`, then at least one ASCII digit, decimal value at most 255. -/
def validToken : List Char → Bool
  | [] => false
  | c :: rest =>
    if c = '+' then
      decide (rest ≠ []) && rest.all (fun x => x.isDigit) && decide (natValue rest ≤ 255)
    else
      (c :: rest).all (fun x => x.isDigit) && decide (natValue (c :: rest) ≤ 255)

/-- Shorthand for embedding string literals. -/
def strL (s : String) : List Char := s.toList

/-- A letter `a`..`z`. -/
def letterChar (k : Nat) : Char := Char.ofNat (97 + k % 26)

/-- `demoWords i` is the three-letter word spelling `i` in base 26, so the
list `demoWords` below is lexicographically sorted and duplicate-free. -/
def mkWord (i : Nat) : List Char := [letterChar (i / 676), letterChar (i / 26), letterChar i]

/-- Modelled from the spec: a concrete stand-in for the dictionary `WORDS`
(`wordlist.rs` is not under `src/`) — an immutable, lexicographically sorted
sequence of unique, separator-free words with more than `B = 1626` entries
(the spec allows entries beyond `B`: "legal to exist"). -/
def demoWords : List (List Char) := (List.range 1700).map mkWord

section Sanity

example : natCeilRoot 4294967296 3 = 1626 := by decide
example : natCeilRoot 4294967296 4 = 256 := by decide
example : deconstruct 40 4 = [0, 0, 0, 40] := by decide
example : deconstruct (192 * 256 ^ 3 + 168 * 256 ^ 2 + 1) 4 = [192, 168, 0, 1] := by decide
example : deconstruct (525 * 1626 ^ 2 + 231 * 1626 + 23) 3 = [525, 231, 23] := by decide
example : construct [192, 168, 0, 1] = 192 * 256 ^ 3 + 168 * 256 ^ 2 + 1 := by decide
example : construct [552, 131, 9] = 552 * 1626 ^ 2 + 131 * 1626 + 9 := by decide
example : parse_ipv4 (strL "192.168.1.1") = some [192, 168, 1, 1] := by decide
example : parse_ipv4 (strL "555.355.0.24") = none := by decide
example : parse_ipv4 (strL "192.168.0") = none := by decide
example : parse_ipv4 (strL "strong.curious.dolphin.man") = none := by decide
example : parse_ipv4 (strL "+0.0.0.0") = some [0, 0, 0, 0] := by decide
example : format_ipv4 [127, 0, 0, 1] = strL "127.0.0.1" := by decide
example : format_ipv4 [192, 9, 24, 1] = strL "192.9.24.1" := by decide
example : parse_epid3 [strL "alpha", strL "beta"] (strL "beta.alpha.beta") = some [1, 0, 1] := by
  decide
example : parse_epid3 [strL "a", strL "b"] (strL "") = none := by decide
example : parse_epid3 [strL "a", strL "b"] (strL "A.B.A") = none := by decide
example : epid3_to_ipv4 [strL "a"] (strL "a.a.a") = some (strL "0.0.0.0") := by decide
example : ipv4_to_epid3 [strL "a"] (strL "0.0.0.0") = some (strL "a.a.a") := by decide

end Sanity

/-! ### The mixed-radix converter: decomposition and composition -/

theorem deconstructFullDigits_zero (base : Nat) :
    ∀ fuel, deconstructFullDigits base fuel 0 = List.replicate fuel 0
  | 0 => rfl
  | fuel + 1 => by
    simp [deconstructFullDigits, deconstructFullDigits_zero base fuel, List.replicate_succ]

theorem deconstructDigits_length_le (base : Nat) :
    ∀ fuel rem, (deconstructDigits base fuel rem).length ≤ fuel
  | 0, _ => by simp [deconstructDigits]
  | fuel + 1, rem => by
    simp only [deconstructDigits]
    split
    · simp
    · simpa using deconstructDigits_length_le base fuel (rem / base)

/-- The early-exit digit list, padded with the zeros the loop skipped, is the
full-length digit list. -/
theorem deconstructDigits_append (base : Nat) :
    ∀ fuel rem,
      deconstructDigits base fuel rem ++
          List.replicate (fuel - (deconstructDigits base fuel rem).length) 0 =
        deconstructFullDigits base fuel rem
  | 0, rem => by simp [deconstructDigits, deconstructFullDigits]
  | fuel + 1, rem => by
    by_cases h : rem / base = 0
    · simp [deconstructDigits, deconstructFullDigits, h, deconstructFullDigits_zero]
    · simp only [deconstructDigits, deconstructFullDigits, if_neg h, List.length_cons,
        List.cons_append, Nat.succ_sub_succ]
      rw [deconstructDigits_append base fuel (rem / base)]

/-- The early-exit optimisation is invisible in the result: `deconstruct`
always equals the full-length variant. -/
theorem deconstruct_eq_full (o len : Nat) : deconstruct o len = deconstructFull o len := by
  unfold deconstruct deconstructFull
  rw [← deconstructDigits_append (components_base len) len o, List.reverse_append,
    List.reverse_replicate]

theorem deconstruct_length (o len : Nat) : (deconstruct o len).length = len := by
  have h := deconstructDigits_length_le (components_base len) len o
  simp only [deconstruct, List.length_append, List.length_replicate, List.length_reverse]
  omega

theorem sumLE_replicate_zero (base : Nat) : ∀ k, sumLE base (List.replicate k 0) = 0
  | 0 => rfl
  | k + 1 => by simp [List.replicate_succ, sumLE, sumLE_replicate_zero base k]

theorem sumLE_append_replicate (base : Nat) (l : List Nat) (k : Nat) :
    sumLE base (l ++ List.replicate k 0) = sumLE base l := by
  induction l with
  | nil => simpa [sumLE] using sumLE_replicate_zero base k
  | cons d ds ih => simp [sumLE, ih]

theorem sumLE_fullDigits (base : Nat) :
    ∀ fuel rem, rem < base ^ fuel → sumLE base (deconstructFullDigits base fuel rem) = rem
  | 0, rem, h => by
    simp only [pow_zero, Nat.lt_one_iff] at h
    simp [deconstructFullDigits, sumLE, h]
  | fuel + 1, rem, h => by
    have hb : 0 < base := by
      rcases Nat.eq_zero_or_pos base with h0 | h0
      · subst h0; simp at h
      · exact h0
    have hdiv : rem / base < base ^ fuel := by
      rw [Nat.div_lt_iff_lt_mul hb, ← pow_succ]
      exact h
    simp only [deconstructFullDigits, sumLE]
    rw [sumLE_fullDigits base fuel (rem / base) hdiv]
    exact Nat.mod_add_div rem base

theorem enumFrom_terms_sum (base : Nat) :
    ∀ (l : List Nat) (s : Nat),
      ((List.enumFrom s l).map (fun p => p.2 * base ^ p.1)).sum = base ^ s * sumLE base l := by
  intro l
  induction l with
  | nil => intro s; simp [sumLE]
  | cons d ds ih =>
    intro s
    simp only [List.enumFrom, List.map_cons, List.sum_cons, sumLE, ih (s + 1), pow_succ]
    ring

theorem constructTerms_sum (base : Nat) (comps : List Nat) :
    (constructTerms base comps).sum = sumLE base comps.reverse := by
  unfold constructTerms
  simpa [List.enum] using enumFrom_terms_sum base comps.reverse 0

/-- Composition after decomposition is the identity on the valid ordinal
range `[0, base(len) ^ len)`. -/
theorem construct_deconstruct (len o : Nat) (h : o < components_base len ^ len) :
    construct (deconstruct o len) = o := by
  unfold construct
  rw [deconstruct_length, constructTerms_sum, deconstruct_eq_full]
  unfold deconstructFull
  rw [List.reverse_reverse]
  exact sumLE_fullDigits (components_base len) len o h

theorem fullDigits_lt (base : Nat) (hb : 0 < base) :
    ∀ fuel rem d, d ∈ deconstructFullDigits base fuel rem → d < base
  | 0, rem, d => by simp [deconstructFullDigits]
  | fuel + 1, rem, d => by
    simp only [deconstructFullDigits, List.mem_cons]
    rintro (rfl | hmem)
    · exact Nat.mod_lt rem hb
    · exact fullDigits_lt base hb fuel (rem / base) d hmem

/-- Every digit `deconstruct` produces is a remainder modulo the base. -/
theorem deconstruct_digit_lt (o len : Nat) (hb : 0 < components_base len) :
    ∀ d ∈ deconstruct o len, d < components_base len := by
  intro d hd
  rw [deconstruct_eq_full] at hd
  unfold deconstructFull at hd
  rw [List.mem_reverse] at hd
  exact fullDigits_lt (components_base len) hb len o d hd

theorem fullDigits_sumLE (base : Nat) (ds : List Nat) (h : ∀ d ∈ ds, d < base) :
    deconstructFullDigits base ds.length (sumLE base ds) = ds := by
  induction ds with
  | nil => simp [deconstructFullDigits]
  | cons d ds ih =>
    have hd : d < base := h d (List.mem_cons_self d ds)
    have hb : 0 < base := Nat.lt_of_le_of_lt (Nat.zero_le d) hd
    simp only [List.length_cons, deconstructFullDigits, sumLE]
    rw [Nat.add_mul_mod_self_left, Nat.mod_eq_of_lt hd, Nat.add_mul_div_left _ _ hb,
      Nat.div_eq_of_lt hd, Nat.zero_add]
    simp [ih (fun x hx => h x (List.mem_cons_of_mem d hx))]

/-- Decomposition after composition is the identity on in-range digit
sequences. -/
theorem deconstruct_construct (ds : List Nat)
    (h : ∀ d ∈ ds, d < components_base ds.length) :
    deconstruct (construct ds) ds.length = ds := by
  rw [deconstruct_eq_full]
  unfold deconstructFull construct
  rw [constructTerms_sum]
  have hrev : ∀ d ∈ ds.reverse, d < components_base ds.length := fun d hd =>
    h d (List.mem_reverse.mp hd)
  have hlen : ds.length = ds.reverse.length := (List.length_reverse ds).symm
  calc (deconstructFullDigits (components_base ds.length) ds.length
          (sumLE (components_base ds.length) ds.reverse)).reverse
      = (deconstructFullDigits (components_base ds.length) ds.reverse.length
          (sumLE (components_base ds.length) ds.reverse)).reverse := by rw [← hlen]
    _ = ds.reverse.reverse := by rw [fullDigits_sumLE _ _ hrev]
    _ = ds := List.reverse_reverse ds

theorem sumLE_lt (base : Nat) (ds : List Nat) (h : ∀ d ∈ ds, d < base) :
    sumLE base ds < base ^ ds.length := by
  induction ds with
  | nil => simp [sumLE]
  | cons d ds ih =>
    have hd : d < base := h d (List.mem_cons_self d ds)
    have hS := ih (fun x hx => h x (List.mem_cons_of_mem d hx))
    simp only [sumLE, List.length_cons, pow_succ]
    calc d + base * sumLE base ds < base + base * sumLE base ds := by omega
      _ = base * (sumLE base ds + 1) := by ring
      _ ≤ base * base ^ ds.length := Nat.mul_le_mul_left base hS
      _ = base ^ ds.length * base := Nat.mul_comm _ _

/-! ### Splitting and joining dotted tokens -/

theorem splitDot_no_dot (t : List Char) (h : ('.' : Char) ∉ t) : splitDot t = [t] := by
  induction t with
  | nil => rfl
  | cons c cs ih =>
    have hc : c ≠ '.' := fun hc => h (hc ▸ List.mem_cons_self c cs)
    have hcs : ('.' : Char) ∉ cs := fun hm => h (List.mem_cons_of_mem c hm)
    simp [splitDot, hc, ih hcs]

theorem splitDot_append_dot (t rest : List Char) (h : ('.' : Char) ∉ t) :
    splitDot (t ++ '.' :: rest) = t :: splitDot rest := by
  induction t with
  | nil => simp [splitDot]
  | cons c cs ih =>
    have hc : c ≠ '.' := fun hc => h (hc ▸ List.mem_cons_self c cs)
    have hcs : ('.' : Char) ∉ cs := fun hm => h (List.mem_cons_of_mem c hm)
    simp only [List.cons_append, splitDot, if_neg hc, List.append_eq]
    rw [ih hcs]

/-- Splitting a dot-joined list of dot-free tokens recovers the tokens. -/
theorem splitDot_joinDots :
    ∀ ts : List (List Char), ts ≠ [] → (∀ t ∈ ts, ('.' : Char) ∉ t) →
      splitDot (joinDots ts) = ts
  | [], h, _ => absurd rfl h
  | [t], _, hdot => by simpa [joinDots] using splitDot_no_dot t (hdot t (by simp))
  | t :: t' :: ts, _, hdot => by
    have ht : ('.' : Char) ∉ t := hdot t (by simp)
    have hrest : ∀ u ∈ t' :: ts, ('.' : Char) ∉ u := fun u hu =>
      hdot u (List.mem_cons_of_mem t hu)
    simp only [joinDots, splitDot_append_dot t _ ht]
    rw [splitDot_joinDots (t' :: ts) (by simp) hrest]

/-! ### Decimal rendering and `u8` parsing -/

theorem digitChar_isDigit (d : Nat) (h : d < 10) : (Nat.digitChar d).isDigit = true := by
  interval_cases d <;> decide

theorem digitChar_toNat (d : Nat) (h : d < 10) : (Nat.digitChar d).toNat - 48 = d := by
  interval_cases d <;> decide

theorem digitChar_ne_dot (d : Nat) (h : d < 10) : Nat.digitChar d ≠ '.' := by
  interval_cases d <;> decide

theorem digitChar_ne_plus (d : Nat) (h : d < 10) : Nat.digitChar d ≠ '+' := by
  interval_cases d <;> decide

theorem deconstructDigits_ne_nil (base : Nat) (fuel rem : Nat) (h : 0 < fuel) :
    deconstructDigits base fuel rem ≠ [] := by
  cases fuel with
  | zero => omega
  | succ fuel =>
    simp only [deconstructDigits]
    split <;> simp

theorem deconstructDigits_lt (base : Nat) (hb : 0 < base) :
    ∀ fuel rem d, d ∈ deconstructDigits base fuel rem → d < base
  | 0, rem, d => by simp [deconstructDigits]
  | fuel + 1, rem, d => by
    simp only [deconstructDigits]
    split
    · rintro h
      simp only [List.mem_singleton] at h
      exact h ▸ Nat.mod_lt rem hb
    · simp only [List.mem_cons]
      rintro (rfl | hmem)
      · exact Nat.mod_lt rem hb
      · exact deconstructDigits_lt base hb fuel (rem / base) d hmem

theorem sumLE_deconstructDigits (base fuel rem : Nat) (h : rem < base ^ fuel) :
    sumLE base (deconstructDigits base fuel rem) = rem := by
  rw [← sumLE_append_replicate base (deconstructDigits base fuel rem)
      (fuel - (deconstructDigits base fuel rem).length),
    deconstructDigits_append base fuel rem]
  exact sumLE_fullDigits base fuel rem h

theorem natToChars_digits_lt (n : Nat) :
    ∀ d ∈ deconstructDigits 10 (n + 1) n, d < 10 :=
  fun d hd => deconstructDigits_lt 10 (by omega) (n + 1) n d hd

theorem natToChars_ne_nil (n : Nat) : natToChars n ≠ [] := by
  unfold natToChars
  intro h
  simp only [List.map_eq_nil_iff, List.reverse_eq_nil_iff] at h
  exact deconstructDigits_ne_nil 10 (n + 1) n (by omega) h

theorem natToChars_all_digit (n : Nat) : ∀ c ∈ natToChars n, c.isDigit = true := by
  intro c hc
  unfold natToChars at hc
  rw [List.mem_map] at hc
  obtain ⟨d, hd, rfl⟩ := hc
  rw [List.mem_reverse] at hd
  exact digitChar_isDigit d (natToChars_digits_lt n d hd)

theorem natToChars_no_dot (n : Nat) : ('.' : Char) ∉ natToChars n := by
  intro hc
  unfold natToChars at hc
  rw [List.mem_map] at hc
  obtain ⟨d, hd, heq⟩ := hc
  rw [List.mem_reverse] at hd
  exact digitChar_ne_dot d (natToChars_digits_lt n d hd) heq

theorem natToChars_no_plus (n : Nat) : ∀ c ∈ natToChars n, c ≠ '+' := by
  intro c hc
  unfold natToChars at hc
  rw [List.mem_map] at hc
  obtain ⟨d, hd, rfl⟩ := hc
  rw [List.mem_reverse] at hd
  exact digitChar_ne_plus d (natToChars_digits_lt n d hd)

theorem foldl_digits_reverse (ds : List Nat) :
    ∀ acc, List.foldl (fun a d => a * 10 + d) acc ds.reverse =
      acc * 10 ^ ds.length + sumLE 10 ds := by
  induction ds with
  | nil => intro acc; simp [sumLE]
  | cons d ds ih =>
    intro acc
    simp only [List.reverse_cons, List.foldl_append, List.foldl_cons, List.foldl_nil,
      ih acc, sumLE, List.length_cons, pow_succ]
    ring

theorem foldl_map_digitChar (l : List Nat) (h : ∀ d ∈ l, d < 10) :
    ∀ acc, List.foldl (fun a c => a * 10 + (c.toNat - 48)) acc (l.map Nat.digitChar) =
      List.foldl (fun a d => a * 10 + d) acc l := by
  induction l with
  | nil => intro acc; simp
  | cons d ds ih =>
    intro acc
    simp only [List.map_cons, List.foldl_cons,
      digitChar_toNat d (h d (List.mem_cons_self d ds))]
    exact ih (fun x hx => h x (List.mem_cons_of_mem d hx)) _

/-- Rendering a component in decimal and reading the digits back is the
identity. -/
theorem natValue_natToChars (n : Nat) : natValue (natToChars n) = n := by
  unfold natValue natToChars
  rw [foldl_map_digitChar _
      (fun d hd => natToChars_digits_lt n d (List.mem_reverse.mp hd)),
    foldl_digits_reverse]
  simp only [Nat.zero_mul, Nat.zero_add]
  have hlt : n < 10 ^ (n + 1) := by
    calc n < 10 ^ n := Nat.lt_pow_self (by omega) n
      _ ≤ 10 ^ (n + 1) := Nat.pow_le_pow_right (by omega) (by omega)
  exact sumLE_deconstructDigits 10 (n + 1) n hlt

/-- `u8` parsing inverts decimal rendering for in-range components. -/
theorem parseU8_natToChars (n : Nat) (h : n ≤ 255) : parseU8 (natToChars n) = some n := by
  have hne := natToChars_ne_nil n
  have hdig := natToChars_all_digit n
  have hval := natValue_natToChars n
  rcases hc : natToChars n with _ | ⟨c, rest⟩
  · exact absurd hc hne
  · have hplus : c ≠ '+' := natToChars_no_plus n c (by rw [hc]; exact List.mem_cons_self c rest)
    simp only [parseU8, if_neg hplus, parseU8Digits]
    rw [← hc]
    have : (natToChars n).all (fun c => c.isDigit) = true := by
      rw [List.all_eq_true]; exact hdig
    simp [hne, this, hval, h]

/-! ### Token loops, dictionary lookup, and the dictionary invariant -/

theorem parseAll_eq_some_iff (f : List Char → Option Nat) :
    ∀ (ts : List (List Char)) (ds : List Nat),
      parseAll f ts = some ds ↔ List.Forall₂ (fun t d => f t = some d) ts ds := by
  intro ts
  induction ts with
  | nil =>
    intro ds
    simp only [parseAll, Option.some_inj]
    constructor
    · rintro rfl; exact List.Forall₂.nil
    · intro h; cases h; rfl
  | cons t ts ih =>
    intro ds
    simp only [parseAll]
    rcases hf : f t with _ | v
    · simp only [false_iff]
      · constructor
        · intro h; cases h
        · intro h
          cases h with
          | cons hrel _ => rw [hf] at hrel; cases hrel
    · rw [Option.map_eq_some']
      constructor
      · rintro ⟨vs, hvs, rfl⟩
        exact List.Forall₂.cons hf ((ih vs).mp hvs)
      · intro h
        cases h with
        | cons hrel hrest =>
          rw [hf] at hrel
          cases hrel
          exact ⟨_, (ih _).mpr hrest, rfl⟩

theorem parseAll_isSome_iff (f : List Char → Option Nat) :
    ∀ ts : List (List Char),
      (parseAll f ts).isSome = true ↔ ∀ t ∈ ts, (f t).isSome = true := by
  intro ts
  induction ts with
  | nil => simp [parseAll]
  | cons t ts ih =>
    simp only [parseAll]
    rcases hf : f t with _ | v
    · simp [hf]
    · have hmap : (Option.map (fun vs => v :: vs) (parseAll f ts)).isSome =
          (parseAll f ts).isSome := by
        cases parseAll f ts <;> rfl
      rw [hmap, ih]
      constructor
      · intro h u hu
        rcases List.mem_cons.mp hu with rfl | hu'
        · rw [hf]; rfl
        · exact h u hu'
      · intro h u hu
        exact h u (List.mem_cons_of_mem t hu)

theorem parseAll_map (f : List Char → Option Nat) (g : Nat → List Char) :
    ∀ ds : List Nat, (∀ d ∈ ds, f (g d) = some d) → parseAll f (ds.map g) = some ds := by
  intro ds
  induction ds with
  | nil => intro _; rfl
  | cons d ds ih =>
    intro h
    simp only [List.map_cons, parseAll, h d (List.mem_cons_self d ds),
      ih (fun x hx => h x (List.mem_cons_of_mem d hx)), Option.map_some']

theorem getD_mem_of_lt {α : Type} (l : List α) (j : Nat) (d : α) (h : j < l.length) :
    l.getD j d ∈ l := by
  induction l generalizing j with
  | nil => simp at h
  | cons x xs ih =>
    cases j with
    | zero => simp
    | succ j =>
      simp only [List.getD_cons_succ]
      exact List.mem_cons_of_mem x (ih j (by simpa using h))

theorem lookupIdxGo_getD (l : List (List Char)) :
    ∀ (j i : Nat), j < l.length → l.Nodup →
      lookupIdxGo (l.getD j []) l i = some (i + j) := by
  induction l with
  | nil => intro j i h; simp at h
  | cons x xs ih =>
    intro j i hj hn
    rw [List.nodup_cons] at hn
    cases j with
    | zero => simp [lookupIdxGo]
    | succ j =>
      have hj' : j < xs.length := by
        simp only [List.length_cons] at hj
        omega
      have hne : x ≠ xs.getD j [] := by
        intro heq
        exact hn.1 (heq ▸ getD_mem_of_lt xs j [] hj')
      simp only [lookupIdxGo, List.getD_cons_succ]
      have harith : i + 1 + j = i + (j + 1) := by omega
      rw [if_neg hne, ih j (i + 1) hj' hn.2, harith]

/-- On a duplicate-free dictionary the lookup of the word stored at index `j`
returns `j` — the binary-search/indexing round trip. -/
theorem lookupIdx_getD (WORDS : List (List Char)) (j : Nat)
    (hj : j < WORDS.length) (hn : WORDS.Nodup) :
    lookupIdx WORDS (WORDS.getD j []) = some j := by
  unfold lookupIdx
  rw [lookupIdxGo_getD WORDS j 0 hj hn]
  norm_num

theorem lookupIdxGo_some (w : List Char) :
    ∀ (l : List (List Char)) (i r : Nat), lookupIdxGo w l i = some r →
      i ≤ r ∧ r - i < l.length ∧ l.getD (r - i) [] = w := by
  intro l
  induction l with
  | nil => intro i r h; simp [lookupIdxGo] at h
  | cons x xs ih =>
    intro i r h
    simp only [lookupIdxGo] at h
    by_cases hx : x = w
    · rw [if_pos hx] at h
      cases h
      simp [hx]
    · rw [if_neg hx] at h
      obtain ⟨h1, h2, h3⟩ := ih (i + 1) r h
      refine ⟨by omega, by simp; omega, ?_⟩
      have : r - i = (r - (i + 1)) + 1 := by omega
      rw [this, List.getD_cons_succ]
      exact h3

/-- A successful dictionary lookup returns an in-bounds index holding exactly
the looked-up word. -/
theorem lookupIdx_some (WORDS : List (List Char)) (w : List Char) (j : Nat)
    (h : lookupIdx WORDS w = some j) :
    j < WORDS.length ∧ WORDS.getD j [] = w := by
  obtain ⟨_, h2, h3⟩ := lookupIdxGo_some w WORDS 0 j h
  rw [Nat.sub_zero] at h2 h3
  exact ⟨h2, h3⟩

theorem lexLt_cons_iff (x y : Char) (xs ys : List Char) :
    lexLt (x :: xs) (y :: ys) = true ↔ x < y ∨ (x = y ∧ lexLt xs ys = true) := by
  by_cases h1 : x < y
  · simp [lexLt, h1]
  · by_cases h2 : y < x
    · have hne : x ≠ y := ne_of_gt h2
      simp [lexLt, h1, h2, hne]
    · have heq : x = y := le_antisymm (le_of_not_lt h2) (le_of_not_lt h1)
      simp [lexLt, h1, h2, heq]

theorem lexLt_irrefl : ∀ l : List Char, lexLt l l = false
  | [] => rfl
  | c :: cs => by
    rw [← Bool.not_eq_true, lexLt_cons_iff]
    simp [lexLt_irrefl cs]

theorem lexLt_trans : ∀ a b c : List Char,
    lexLt a b = true → lexLt b c = true → lexLt a c = true
  | [], _ :: _, _ :: _, _, _ => rfl
  | [], [], _, hab, _ => by cases hab
  | [], _ :: _, [], _, hbc => by cases hbc
  | _ :: _, [], _, hab, _ => by cases hab
  | _ :: _, _ :: _, [], _, hbc => by cases hbc
  | x :: xs, y :: ys, z :: zs, hab, hbc => by
    rw [lexLt_cons_iff] at hab hbc ⊢
    rcases hab with hxy | ⟨rfl, hxs⟩
    · rcases hbc with hyz | ⟨rfl, _⟩
      · exact Or.inl (lt_trans hxy hyz)
      · exact Or.inl hxy
    · rcases hbc with hyz | ⟨rfl, hys⟩
      · exact Or.inl hyz
      · exact Or.inr ⟨rfl, lexLt_trans xs ys zs hxs hys⟩

theorem sortedWords_head_lt : ∀ (a : List Char) (l : List (List Char)),
    sortedWords (a :: l) = true → ∀ b ∈ l, lexLt a b = true
  | _, [], _, b, hb => by cases hb
  | a, x :: xs, h, b, hb => by
    have hh : lexLt a x = true ∧ sortedWords (x :: xs) = true := by
      simpa [sortedWords, Bool.and_eq_true] using h
    rcases List.mem_cons.mp hb with rfl | hb'
    · exact hh.1
    · exact lexLt_trans a x b hh.1 (sortedWords_head_lt x xs hh.2 b hb')

theorem sortedWords_tail (a : List Char) (l : List (List Char))
    (h : sortedWords (a :: l) = true) : sortedWords l = true := by
  cases l with
  | nil => rfl
  | cons x xs =>
    have hh : lexLt a x = true ∧ sortedWords (x :: xs) = true := by
      simpa [sortedWords, Bool.and_eq_true] using h
    exact hh.2

/-- A strictly sorted dictionary has no duplicate entries. -/
theorem sortedWords_nodup : ∀ l : List (List Char), sortedWords l = true → l.Nodup
  | [], _ => List.nodup_nil
  | a :: l, h => by
    rw [List.nodup_cons]
    refine ⟨fun hmem => ?_, sortedWords_nodup l (sortedWords_tail a l h)⟩
    have := sortedWords_head_lt a l h a hmem
    rw [lexLt_irrefl a] at this
    cases this

theorem dotFreeWords_spec (WORDS : List (List Char)) (h : dotFreeWords WORDS = true) :
    ∀ w ∈ WORDS, ('.' : Char) ∉ w := by
  intro w hw hdot
  unfold dotFreeWords at h
  rw [List.all_eq_true] at h
  have hc := h w hw
  rw [Bool.not_eq_true'] at hc
  have hcontains : w.contains '.' = true := by simpa using hdot
  rw [hcontains] at hc
  cases hc

/-! ### Parse/format round trips and token characterisation -/

/-- Formatting in-range components as a dotted quad and parsing it back is
the identity. -/
theorem parse_format_ipv4 (ds : List Nat) (h4 : ds.length = 4)
    (hle : ∀ d ∈ ds, d ≤ 255) : parse_ipv4 (format_ipv4 ds) = some ds := by
  have hne : ds.map natToChars ≠ [] := by
    simp only [ne_eq, List.map_eq_nil_iff]
    intro h
    rw [h] at h4
    cases h4
  have hdot : ∀ t ∈ ds.map natToChars, ('.' : Char) ∉ t := by
    intro t ht
    rw [List.mem_map] at ht
    obtain ⟨d, _, rfl⟩ := ht
    exact natToChars_no_dot d
  unfold parse_ipv4 format_ipv4
  rw [splitDot_joinDots _ hne hdot, if_pos (by simp [h4])]
  exact parseAll_map parseU8 natToChars ds (fun d hd => parseU8_natToChars d (hle d hd))

/-- Formatting in-range components as words and parsing them back is the
identity, for a duplicate-free dictionary of separator-free words. -/
theorem parse_format_epid3 (WORDS : List (List Char)) (ds : List Nat)
    (h3 : ds.length = 3) (hlt : ∀ d ∈ ds, d < WORDS.length) (hn : WORDS.Nodup)
    (hdot : ∀ w ∈ WORDS, ('.' : Char) ∉ w) :
    parse_epid3 WORDS (format_epid3 WORDS ds) = some ds := by
  have hne : ds.map (fun i => WORDS.getD i []) ≠ [] := by
    simp only [ne_eq, List.map_eq_nil_iff]
    intro h
    rw [h] at h3
    cases h3
  have htok : ∀ t ∈ ds.map (fun i => WORDS.getD i []), ('.' : Char) ∉ t := by
    intro t ht
    rw [List.mem_map] at ht
    obtain ⟨d, hd, rfl⟩ := ht
    exact hdot _ (getD_mem_of_lt WORDS d [] (hlt d hd))
  unfold parse_epid3 format_epid3
  rw [splitDot_joinDots _ hne htok, if_pos (by simp [h3])]
  exact parseAll_map (lookupIdx WORDS) _ ds
    (fun d hd => lookupIdx_getD WORDS d (hlt d hd) hn)

theorem parseU8Digits_isSome_iff (cs : List Char) :
    (parseU8Digits cs).isSome = true ↔
      cs ≠ [] ∧ (∀ c ∈ cs, c.isDigit = true) ∧ natValue cs ≤ 255 := by
  unfold parseU8Digits
  by_cases h1 : cs = []
  · simp [h1]
  · rw [if_neg h1]
    by_cases h2 : cs.all (fun c => c.isDigit) = true
    · rw [if_pos h2]
      by_cases h3 : natValue cs ≤ 255
      · rw [if_pos h3]
        simp only [Option.isSome_some, true_iff]
        exact ⟨h1, List.all_eq_true.mp h2, h3⟩
      · rw [if_neg h3]
        simp only [Option.isSome_none, Bool.false_eq_true, false_iff]
        intro h
        exact h3 h.2.2
    · rw [if_neg h2]
      rw [List.all_eq_true] at h2
      simp only [Option.isSome_none, Bool.false_eq_true, false_iff]
      intro h
      exact h2 h.2.1

/-- A token parses as `u8` exactly when it has the amended valid shape. -/
theorem parseU8_isSome_iff_validToken (t : List Char) :
    (parseU8 t).isSome = true ↔ validToken t = true := by
  cases t with
  | nil => simp [parseU8, validToken]
  | cons c rest =>
    by_cases hc : c = '+'
    · simp only [parseU8, validToken, if_pos hc]
      rw [parseU8Digits_isSome_iff]
      simp only [Bool.and_eq_true, List.all_eq_true, decide_eq_true_eq, ne_eq]
      tauto
    · simp only [parseU8, validToken, if_neg hc]
      rw [parseU8Digits_isSome_iff]
      simp [Bool.and_eq_true, List.all_eq_true]

/-- Composed ordinals of in-range digit sequences stay inside the valid
range. -/
theorem construct_lt (ds : List Nat) (h : ∀ x ∈ ds, x < components_base ds.length) :
    construct ds < components_base ds.length ^ ds.length := by
  unfold construct
  rw [constructTerms_sum]
  have := sumLE_lt (components_base ds.length) ds.reverse
    (fun x hx => h x (List.mem_reverse.mp hx))
  simpa using this

/-! ### The claims -/

/-- Claim C1: for every valid IPv4 component array `(a,b,c,d)` with each
component in `[0,255]`, formatting it as a dotted-quad string, converting it
with `ipv4_to_epid3`, and converting the result back with `epid3_to_ipv4`
reproduces the exact original dotted-quad string, provided the dictionary is
lexicographically sorted with unique entries (strict sortedness gives both)
and has at least 1626 words.  The dictionary itself is modelled from the
spec (`wordlist.rs` is not under `src/`): its words are separator-free
tokens of the dotted identifier format. -/
theorem c1_address_roundtrip (a b c d : Nat) (ha : a ≤ 255) (hb : b ≤ 255)
    (hc : c ≤ 255) (hd : d ≤ 255) (WORDS : List (List Char))
    (hsort : sortedWords WORDS = true) (hlen : 1626 ≤ WORDS.length)
    (hdotf : dotFreeWords WORDS = true) :
    (ipv4_to_epid3 WORDS (format_ipv4 [a, b, c, d])).bind (epid3_to_ipv4 WORDS) =
      some (format_ipv4 [a, b, c, d]) := by
  have hnodup : WORDS.Nodup := sortedWords_nodup WORDS hsort
  have hdot : ∀ w ∈ WORDS, ('.' : Char) ∉ w := dotFreeWords_spec WORDS hdotf
  have h256 : components_base 4 = 256 := by decide
  have h1626 : components_base 3 = 1626 := by decide
  have hval : ∀ x ∈ [a, b, c, d], x ≤ 255 := by
    intro x hx
    simp only [List.mem_cons, List.not_mem_nil, or_false] at hx
    rcases hx with rfl | rfl | rfl | rfl <;> assumption
  have hlt4 : ∀ x ∈ [a, b, c, d], x < components_base ([a, b, c, d] : List Nat).length := by
    intro x hx
    have h4 : components_base ([a, b, c, d] : List Nat).length = 256 := h256
    rw [h4]
    have := hval x hx
    omega
  have hp : parse_ipv4 (format_ipv4 [a, b, c, d]) = some [a, b, c, d] :=
    parse_format_ipv4 [a, b, c, d] rfl hval
  have ho : construct [a, b, c, d] < 2 ^ 32 := by
    have := construct_lt [a, b, c, d] hlt4
    have h4 : components_base ([a, b, c, d] : List Nat).length ^
        ([a, b, c, d] : List Nat).length = 2 ^ 32 := by
      rw [show ([a, b, c, d] : List Nat).length = 4 from rfl, h256]
      norm_num
    rw [h4] at this
    exact this
  have hb3 : 0 < components_base 3 := by rw [h1626]; omega
  have hlt3 : ∀ x ∈ deconstruct (construct [a, b, c, d]) 3, x < WORDS.length := by
    intro x hx
    have := deconstruct_digit_lt (construct [a, b, c, d]) 3 hb3 x hx
    rw [h1626] at this
    omega
  have hpe : parse_epid3 WORDS (format_epid3 WORDS (deconstruct (construct [a, b, c, d]) 3)) =
      some (deconstruct (construct [a, b, c, d]) 3) :=
    parse_format_epid3 WORDS _ (deconstruct_length _ _) hlt3 hnodup hdot
  have hco : construct (deconstruct (construct [a, b, c, d]) 3) = construct [a, b, c, d] :=
    construct_deconstruct 3 _ (by
      rw [h1626]
      calc construct [a, b, c, d] < 2 ^ 32 := ho
        _ ≤ 1626 ^ 3 := by norm_num)
  have hdc : deconstruct (construct [a, b, c, d]) 4 = [a, b, c, d] :=
    deconstruct_construct [a, b, c, d] hlt4
  rw [ipv4_to_epid3, hp]
  rw [Option.map_some', Option.map_some', Option.map_some', Option.some_bind]
  rw [epid3_to_ipv4, hpe]
  rw [Option.map_some', Option.map_some', Option.map_some', hco, hdc]

/-- Claim C1 witness: the concrete round trip `192.168.1.1` with the
1700-word demo dictionary. -/
theorem c1_address_roundtrip_witness :
    (ipv4_to_epid3 demoWords (strL "192.168.1.1")).bind (epid3_to_ipv4 demoWords) =
      some (strL "192.168.1.1") := by
  have h : strL "192.168.1.1" = format_ipv4 [192, 168, 1, 1] := by decide
  rw [h]
  exact c1_address_roundtrip 192 168 1 1 (by decide) (by decide) (by decide) (by decide)
    demoWords (by decide) (by decide) (by decide)

/-- Claim C2: for every arity `k` in `{3,...,12}` and every ordinal in
`[0, base(k) ^ k)`, composing the decomposition gives back the ordinal. -/
theorem c2_compose_decompose (k : Nat) (hk3 : 3 ≤ k) (hk12 : k ≤ 12) (o : Nat)
    (ho : o < components_base k ^ k) : construct (deconstruct o k) = o :=
  construct_deconstruct k o ho

/-- Claim C2 witness: arity 3, the largest u32 ordinal. -/
theorem c2_compose_decompose_witness :
    construct (deconstruct 4294967295 3) = 4294967295 :=
  c2_compose_decompose 3 (by decide) (by decide) 4294967295 (by decide)

/-- Claim C3 counterexample: with a spec-conforming dictionary (sorted,
unique, more than `B = 1626` entries — the spec explicitly allows entries
beyond `B`), the word stored at index 1626 is accepted by `parse_epid3`, so
an input to `epid3_to_ipv4` does use a dictionary index `≥ B`: the parser
performs no upper-bound check, refuting the claim's input half. -/
theorem c3_counterexample :
    sortedWords demoWords = true ∧ 1626 ≤ demoWords.length ∧
      parse_epid3 demoWords (joinDots [mkWord 1626, mkWord 0, mkWord 0]) =
        some [1626, 0, 0] ∧
      (epid3_to_ipv4 demoWords (joinDots [mkWord 1626, mkWord 0, mkWord 0])).isSome =
        true :=
  ⟨by decide, by decide, by decide, by decide⟩

/-- Claim C3 (amended): every digit in a 3-component sequence produced by the
codec (the output side of `ipv4_to_epid3`) is `< 1626`, so entries at
positions `≥ 1626` are unreachable as outputs; inputs to `epid3_to_ipv4`,
however, are not bounds-checked and can use larger indices when the
dictionary has more than 1626 entries. -/
theorem c3_output_digits_lt (WORDS : List (List Char)) (s t : List Char)
    (h : ipv4_to_epid3 WORDS s = some t) :
    ∃ ds, ds.length = 3 ∧ (∀ d ∈ ds, d < 1626) ∧ t = format_epid3 WORDS ds := by
  unfold ipv4_to_epid3 at h
  rcases hp : parse_ipv4 s with _ | comps
  · rw [hp] at h
    cases h
  · rw [hp] at h
    simp only [Option.map_some', Option.some_inj] at h
    refine ⟨deconstruct (construct comps) 3, deconstruct_length _ _, ?_, h.symm⟩
    have h1626 : components_base 3 = 1626 := by decide
    intro d hd
    have := deconstruct_digit_lt (construct comps) 3 (by rw [h1626]; omega) d hd
    rwa [h1626] at this

/-- Claim C3 amended-theorem witness: a concrete successful encoding. -/
theorem c3_output_digits_lt_witness :
    ∃ ds, ds.length = 3 ∧ (∀ d ∈ ds, d < 1626) ∧
      strL "a.a.a" = format_epid3 [strL "a"] ds :=
  c3_output_digits_lt [strL "a"] (strL "0.0.0.0") (strL "a.a.a") (by decide)

/-- Claim C4 counterexample: the four-token address string `"+0.0.0.0"`
contains the signed, non-digits-only token `"+0"`, yet `parse_ipv4` accepts
it — Rust's `u8::FromStr` allows one leading `'+'` — refuting "textual
digits only, no sign". -/
theorem c4_counterexample :
    parse_ipv4 (strL "+0.0.0.0") = some [0, 0, 0, 0] ∧
      strL "+0" ∈ splitDot (strL "+0.0.0.0") ∧
      (strL "+0").all (fun c => c.isDigit) = false :=
  ⟨by decide, by decide, by decide⟩

/-- Claim C4 (amended): for every input string with exactly four dot-separated
tokens, the parse succeeds if and only if every token consists of one optional
leading `'+'` followed by textual digits only denoting an integer in
`[0,255]`; any single failing token makes the whole parse yield absence. -/
theorem c4_token_validity (s : List Char) (h4 : (splitDot s).length = 4) :
    (parse_ipv4 s).isSome = true ↔ ∀ t ∈ splitDot s, validToken t = true := by
  unfold parse_ipv4
  rw [if_pos h4, parseAll_isSome_iff]
  constructor
  · intro h t ht
    exact (parseU8_isSome_iff_validToken t).mp (h t ht)
  · intro h t ht
    exact (parseU8_isSome_iff_validToken t).mpr (h t ht)

/-- Claim C4 amended-theorem witness. -/
theorem c4_token_validity_witness : (parse_ipv4 (strL "192.168.1.1")).isSome = true :=
  (c4_token_validity (strL "192.168.1.1") (by decide)).mpr (by decide)

/-- Claim C5 counterexample: the component sequence `deconstruct 0 15` is
producible from the u32 ordinal `0`, yet inside `construct` the intermediate
power for its most significant position, `base ^ (len - 1) = 5 ^ 14`, already
exceeds `2 ^ 32 - 1`: in the Rust source `base.pow(i as u32)` overflows the
u32 width there, so not every intermediate stays within the ordinal width. -/
theorem c5_counterexample :
    (deconstruct 0 15).length = 15 ∧ components_base 15 = 5 ∧
      4294967295 < components_base 15 ^ ((deconstruct 0 15).length - 1) :=
  ⟨by decide, by decide, by decide⟩

/-- Claim C5 (amended): for the supported arities `3 ≤ len ≤ 12` and every
component sequence produced by `deconstruct` from a u32 ordinal, the u32
pivot width holds `256^4 - 1`, every power `base ^ i` used by `construct`,
every intermediate multiplication `comp * base ^ i`, and every partial sum of
the summation stay below `2 ^ 32` — no overflow is reachable there. -/
theorem c5_no_overflow (len o : Nat) (h3 : 3 ≤ len) (h12 : len ≤ 12)
    (ho : o < 2 ^ 32) :
    (∀ i, i < len → components_base len ^ i < 2 ^ 32) ∧
      (∀ t ∈ constructTerms (components_base len) (deconstruct o len), t < 2 ^ 32) ∧
      (∀ n, ((constructTerms (components_base len) (deconstruct o len)).take n).sum <
        2 ^ 32) := by
  have hcb : 2 ^ 32 ≤ components_base len ^ len ∧
      components_base len ^ (len - 1) < 2 ^ 32 ∧ 0 < components_base len := by
    interval_cases len <;> exact ⟨by decide, by decide, by decide⟩
  obtain ⟨hpow, hmax, hbpos⟩ := hcb
  have hsum : (constructTerms (components_base len) (deconstruct o len)).sum = o := by
    have hlen := deconstruct_length o len
    have hcd := construct_deconstruct len o (lt_of_lt_of_le ho hpow)
    unfold construct at hcd
    rw [hlen] at hcd
    exact hcd
  refine ⟨?_, ?_, ?_⟩
  · intro i hi
    calc components_base len ^ i ≤ components_base len ^ (len - 1) :=
        Nat.pow_le_pow_right hbpos (by omega)
      _ < 2 ^ 32 := hmax
  · intro t ht
    calc t ≤ (constructTerms (components_base len) (deconstruct o len)).sum :=
        List.single_le_sum (fun x _ => Nat.zero_le x) t ht
      _ = o := hsum
      _ < 2 ^ 32 := ho
  · intro n
    have htake : ((constructTerms (components_base len) (deconstruct o len)).take n).sum ≤
        (constructTerms (components_base len) (deconstruct o len)).sum := by
      conv_rhs =>
        rw [← List.take_append_drop n (constructTerms (components_base len)
          (deconstruct o len))]
      rw [List.sum_append]
      exact Nat.le_add_right _ _
    calc ((constructTerms (components_base len) (deconstruct o len)).take n).sum ≤
        (constructTerms (components_base len) (deconstruct o len)).sum := htake
      _ = o := hsum
      _ < 2 ^ 32 := ho

/-- Claim C5 amended-theorem witness: the largest power `construct` uses at
the codec's address arity stays within the u32 width. -/
theorem c5_no_overflow_witness : components_base 4 ^ 3 < 2 ^ 32 :=
  (c5_no_overflow 4 0 (by decide) (by decide) (by decide)).1 3 (by decide)

/-- Claim C6: the derived base for 3 components and cardinality `256^4` is
1626, and it covers the address space: `1626 ^ 3 ≥ 256 ^ 4`. -/
theorem c6_base_derivation :
    components_base 3 = 1626 ∧ IPV4_COMBS ≤ components_base 3 ^ 3 :=
  ⟨by decide, by decide⟩

/-- Claim C7: a token count different from the expected arity (4 for the
address form inside `ipv4_to_epid3`, 3 for the word form inside
`epid3_to_ipv4`) makes the conversion return absence, with no partial
result. -/
theorem c7_arity_mismatch (WORDS : List (List Char)) (s : List Char) :
    ((splitDot s).length ≠ 4 → ipv4_to_epid3 WORDS s = none) ∧
      ((splitDot s).length ≠ 3 → epid3_to_ipv4 WORDS s = none) := by
  constructor
  · intro h
    unfold ipv4_to_epid3 parse_ipv4
    rw [if_neg h]
    rfl
  · intro h
    unfold epid3_to_ipv4 parse_epid3
    rw [if_neg h]
    rfl

/-- Claim C7 witness: the spec's wrong-arity rejection examples. -/
theorem c7_arity_mismatch_witness :
    ipv4_to_epid3 [] (strL "192.168.0") = none ∧
      epid3_to_ipv4 [] (strL "make.war") = none :=
  ⟨(c7_arity_mismatch [] (strL "192.168.0")).1 (by decide),
    (c7_arity_mismatch [] (strL "make.war")).2 (by decide)⟩

/-- Claim C8: a three-token identifier parses exactly when each token is a
verbatim (case-sensitive) dictionary entry, whose position becomes the digit
value; any unknown token — wrong case, unknown word, or from an empty input —
yields absence, never a partial result. -/
theorem c8_word_lookup (WORDS : List (List Char)) (hn : WORDS.Nodup) (s : List Char)
    (ds : List Nat) :
    parse_epid3 WORDS s = some ds ↔
      ((splitDot s).length = 3 ∧
        List.Forall₂ (fun t d => d < WORDS.length ∧ WORDS.getD d [] = t)
          (splitDot s) ds) := by
  unfold parse_epid3
  by_cases h3 : (splitDot s).length = 3
  · rw [if_pos h3, parseAll_eq_some_iff]
    constructor
    · intro h
      refine ⟨h3, h.imp ?_⟩
      intro t d hf
      exact lookupIdx_some WORDS t d hf
    · rintro ⟨-, h⟩
      refine h.imp ?_
      intro t d hf
      have := lookupIdx_getD WORDS d hf.1 hn
      rwa [hf.2] at this
  · rw [if_neg h3]
    constructor
    · intro h
      cases h
    · rintro ⟨hh, -⟩
      exact absurd hh h3

/-- Claim C8 witness: a concrete dictionary and identifier. -/
theorem c8_word_lookup_witness :
    (splitDot (strL "b.a.b")).length = 3 ∧
      List.Forall₂ (fun t d => d < ([strL "a", strL "b"] : List (List Char)).length ∧
          ([strL "a", strL "b"] : List (List Char)).getD d [] = t)
        (splitDot (strL "b.a.b")) [1, 0, 1] :=
  (c8_word_lookup [strL "a", strL "b"]
      (sortedWords_nodup [strL "a", strL "b"] (by decide))
      (strL "b.a.b") [1, 0, 1]).mp (by decide)

/-- Claim C9: for every u32 ordinal and every length, the early-exit
decomposition returns exactly the same component vector as the variant that
always iterates the full length. -/
theorem c9_early_exit (o len : Nat) (ho : o < 2 ^ 32) :
    deconstruct o len = deconstructFull o len :=
  deconstruct_eq_full o len

/-- Claim C9 witness. -/
theorem c9_early_exit_witness : deconstruct 40 4 = deconstructFull 40 4 :=
  c9_early_exit 40 4 (by decide)

/-- Claim C10: whenever `epid3_to_ipv4` returns a string, that string is
exactly four decimal tokens joined by `'.'`, each denoting an integer in
`[0,255]` (every digit of `deconstruct _ 4` is a remainder modulo 256), as
witnessed by `parse_ipv4` accepting it back. -/
theorem c10_output_form (WORDS : List (List Char)) (s t : List Char)
    (h : epid3_to_ipv4 WORDS s = some t) :
    ∃ ds, ds.length = 4 ∧ (∀ d ∈ ds, d < 256) ∧ t = format_ipv4 ds ∧
      parse_ipv4 t = some ds := by
  unfold epid3_to_ipv4 at h
  rcases hp : parse_epid3 WORDS s with _ | comps
  · rw [hp] at h
    cases h
  · rw [hp] at h
    simp only [Option.map_some', Option.some_inj] at h
    have h256 : components_base 4 = 256 := by decide
    have hlen4 : (deconstruct (construct comps) 4).length = 4 := deconstruct_length _ _
    have hlt : ∀ d ∈ deconstruct (construct comps) 4, d < 256 := by
      intro d hd
      have := deconstruct_digit_lt (construct comps) 4 (by rw [h256]; omega) d hd
      rwa [h256] at this
    refine ⟨deconstruct (construct comps) 4, hlen4, hlt, h.symm, ?_⟩
    rw [← h]
    refine parse_format_ipv4 _ hlen4 (fun d hd => ?_)
    have := hlt d hd
    omega

/-- Claim C10 witness: a concrete successful decoding. -/
theorem c10_output_form_witness :
    ∃ ds, ds.length = 4 ∧ (∀ d ∈ ds, d < 256) ∧ strL "0.0.0.0" = format_ipv4 ds ∧
      parse_ipv4 (strL "0.0.0.0") = some ds :=
  c10_output_form [strL "a"] (strL "a.a.a") (strL "0.0.0.0") (by decide)

end Epid
